import Mathlib

/-!
# Verification of the tokenizers normalization layer

A shallow embedding of the `NormalizedString` / `Normalizer` API of
`src/bindings/cpp/tokenizers-cpp/normalizers.h` (and the older variant in
`src/unnamed/part_000`).  Text is modelled as a list of Unicode scalar
values (`List Nat`).  The C++ layer in `src/` is a thin wrapper over an
`ffi::` engine whose body is not part of `src/`; the engine-side behaviour
is therefore modelled from the specification, as noted on each definition.
-/

namespace Tokenizers

/-- A text is a sequence of Unicode scalar values. -/
abbrev Text := List Nat

/-- Codepoints of a Lean string literal, for concrete examples. -/
def strCodes (s : String) : Text := s.data.map Char.toNat

/-- Modelled from the spec: the standard Unicode whitespace property used by
`clean_text` and `Strip` (space, tab, LF, VT, FF, CR, NEL, NBSP and the
common wide/space separators). -/
def isWhitespace (c : Nat) : Bool :=
  c = 0x20 || c = 0x9 || c = 0xA || c = 0xB || c = 0xC || c = 0xD ||
  c = 0x85 || c = 0xA0 || c = 0x1680 || (0x2000 ≤ c && c ≤ 0x200A) ||
  c = 0x2028 || c = 0x2029 || c = 0x202F || c = 0x205F || c = 0x3000

/-- Modelled from the spec: Unicode control characters (category Cc). -/
def isControl (c : Nat) : Bool :=
  (c < 0x20 || c = 0x7F || (0x80 ≤ c && c ≤ 0x9F))

/-- Modelled from the spec: membership in the CJK Unified Ideographs blocks
(the standard ranges used by the BERT `handle_chinese_chars` step). -/
def isCJK (c : Nat) : Bool :=
  (0x4E00 ≤ c && c ≤ 0x9FFF) || (0x3400 ≤ c && c ≤ 0x4DBF) ||
  (0x20000 ≤ c && c ≤ 0x2A6DF) || (0x2A700 ≤ c && c ≤ 0x2B73F) ||
  (0x2B740 ≤ c && c ≤ 0x2B81F) || (0x2B820 ≤ c && c ≤ 0x2CEAF) ||
  (0xF900 ≤ c && c ≤ 0xFAFF) || (0x2F800 ≤ c && c ≤ 0x2FA1F)

/-- Modelled from the spec: combining marks (category Mn, here the Combining
Diacritical Marks block, which covers the accents the examples exercise). -/
def isMn (c : Nat) : Bool := 0x300 ≤ c && c ≤ 0x36F

/-- Modelled from the spec: the full Unicode lowercase mapping, restricted to
a representative table (ASCII letters and the Latin-1 uppercase block). -/
def uLower (c : Nat) : Nat :=
  if 0x41 ≤ c ∧ c ≤ 0x5A then c + 0x20
  else if 0xC0 ≤ c ∧ c ≤ 0xDE ∧ c ≠ 0xD7 then c + 0x20
  else c

/-- Modelled from the spec: Unicode canonical decomposition of one scalar
value, restricted to a representative table (`é` and `É` decompose to the
base letter followed by U+0301 COMBINING ACUTE ACCENT; every other scalar is
its own decomposition). -/
def nfdChar (c : Nat) : List Nat :=
  if c = 0xE9 then [0x65, 0x301]
  else if c = 0xC9 then [0x45, 0x301]
  else [c]

/-- Modelled from the spec: canonical composition of a base character with a
following combining mark (the inverse of the `nfdChar` table). -/
def composePair (b m : Nat) : Option Nat :=
  if b = 0x65 ∧ m = 0x301 then some 0xE9
  else if b = 0x45 ∧ m = 0x301 then some 0xC9
  else none

/-- Canonical decomposition of a text (NFD). -/
def nfd : Text → Text
  | [] => []
  | c :: rest => nfdChar c ++ nfd rest

/-- Canonical composition pass: fuse every base/combining-mark pair that has
a precomposed form, left to right. -/
def compose : Text → Text
  | [] => []
  | [c] => [c]
  | a :: b :: rest =>
    match composePair a b with
    | some p => compose (p :: rest)
    | none => a :: compose (b :: rest)
  termination_by l => l.length

/-- Modelled from the spec: NFC normalization — canonical decomposition
followed by canonical composition. -/
def nfc (l : Text) : Text := compose (nfd l)

/-- Modelled from the spec: compatibility decomposition of one scalar value
(the canonical table extended with a representative compatibility entry,
the `ﬁ` ligature). -/
def nfkdChar (c : Nat) : List Nat :=
  if c = 0xFB01 then [0x66, 0x69] else nfdChar c

/-- Compatibility decomposition of a text (NFKD). -/
def nfkd : Text → Text
  | [] => []
  | c :: rest => nfkdChar c ++ nfkd rest

/-- Modelled from the spec: NFKC normalization — compatibility decomposition
followed by canonical composition. -/
def nfkc (l : Text) : Text := compose (nfkd l)

/-- Modelled from the spec: `StripAccents` — NFD decomposition followed by
deletion of all combining marks. -/
def stripAccentsF (l : Text) : Text := (nfd l).filter (fun c => !(isMn c))

/-- Modelled from the spec: full Unicode lowercase case-folding of a text. -/
def lowercaseF (l : Text) : Text := l.map uLower

/-- Collapse every run of ASCII spaces to a single space. -/
def collapseSpaces : Text → Text
  | [] => []
  | [c] => [c]
  | a :: b :: rest =>
    if a = 0x20 ∧ b = 0x20 then collapseSpaces (b :: rest)
    else a :: collapseSpaces (b :: rest)

/-- Modelled from the spec: BERT `clean_text` — remove Unicode control
characters (category Cc, except tab/newline/carriage-return, which are
whitespace and get mapped to space), map every whitespace character to the
ASCII space, and collapse whitespace runs to a single space. -/
def cleanText (l : Text) : Text :=
  collapseSpaces
    ((l.filter (fun c => !(isControl c && !(c = 0x9 || c = 0xA || c = 0xD)))).map
      (fun c => if isWhitespace c then 0x20 else c))

/-- Modelled from the spec: BERT `handle_chinese_chars` — surround every CJK
ideograph with ASCII spaces. -/
def handleChineseChars : Text → Text
  | [] => []
  | c :: rest =>
    (if isCJK c then [0x20, c, 0x20] else [c]) ++ handleChineseChars rest

/-! ## A miniature regular-expression engine

Modelled from the spec: the regular-expression engine is an external
collaborator ("compile pattern → matcher, find non-overlapping matches,
substitute"); a malformed pattern must be rejected at compilation.  The
grammar here is representative: literal characters, escaped metacharacters,
`.`, character classes `[a-z0-9]`, and the postfix operators `+ * ?`.  A
bare metacharacter (such as an unmatched `(`) fails to compile. -/

/-- Metacharacters that may not appear bare in a pattern. -/
def metachar (c : Nat) : Bool :=
  c = 0x28 || c = 0x29 || c = 0x5B || c = 0x5D || c = 0x2B || c = 0x2A ||
  c = 0x3F || c = 0x2E || c = 0x5C || c = 0x7C || c = 0x7B || c = 0x7D

/-- A single-character regex atom. -/
inductive RAtom where
  | lit (c : Nat)
  | cls (ranges : List (Nat × Nat))
  | dot
  deriving DecidableEq, Repr

/-- An atom with an optional postfix repetition operator. -/
inductive RPiece where
  | once (a : RAtom)
  | plus (a : RAtom)
  | star (a : RAtom)
  | opt (a : RAtom)
  deriving DecidableEq, Repr

/-- A compiled regular expression: a sequence of pieces. -/
abbrev Regex := List RPiece

/-- Parse the body of a character class, up to the closing `]`.  Returns the
ranges and the remaining input. -/
def parseClass : List Nat → Option (List (Nat × Nat) × List Nat)
  | [] => none
  | 0x5D :: rest => some ([], rest)
  | c :: 0x2D :: d :: rest2 =>
    if d = 0x5D then none
    else (parseClass rest2).map (fun pr => ((c, d) :: pr.1, pr.2))
  | c :: rest => (parseClass rest).map (fun pr => ((c, c) :: pr.1, pr.2))
  termination_by l => l.length
  decreasing_by all_goals simp_wf <;> omega

/-- Recursive pattern parse with fuel (the fuel is an upper bound on the
input length, so it never runs out on real inputs). -/
def parseGo : Nat → List Nat → Option Regex
  | _, [] => some []
  | 0, _ :: _ => none
  | fuel + 1, c :: rest =>
    let withAtom : RAtom → List Nat → Option Regex := fun a rest2 =>
      match rest2 with
      | 0x2B :: rest3 => (parseGo fuel rest3).map (fun r => RPiece.plus a :: r)
      | 0x2A :: rest3 => (parseGo fuel rest3).map (fun r => RPiece.star a :: r)
      | 0x3F :: rest3 => (parseGo fuel rest3).map (fun r => RPiece.opt a :: r)
      | rest3 => (parseGo fuel rest3).map (fun r => RPiece.once a :: r)
    if c = 0x5C then
      match rest with
      | d :: rest2 => withAtom (.lit d) rest2
      | [] => none
    else if c = 0x5B then
      match parseClass rest with
      | some (ranges, rest2) => withAtom (.cls ranges) rest2
      | none => none
    else if c = 0x2E then withAtom .dot rest
    else if metachar c then none
    else withAtom (.lit c) rest

/-- Compile a pattern; `none` means the pattern is malformed. -/
def compileRegex (l : List Nat) : Option Regex := parseGo (l.length + 1) l

/-- Does an atom match one scalar value? -/
def matchAtom : RAtom → Nat → Bool
  | .lit c, d => c = d
  | .cls rs, d => rs.any (fun r => r.1 ≤ d && d ≤ r.2)
  | .dot, _ => true

/-- Length of the longest prefix whose characters all match the atom. -/
def takeCount (a : RAtom) : List Nat → Nat
  | [] => 0
  | c :: rest => if matchAtom a c then takeCount a rest + 1 else 0

/-- Greedy match of a regex against a prefix of the input; returns the
number of scalar values consumed. -/
def matchSeq : Regex → List Nat → Option Nat
  | [], _ => some 0
  | .once _ :: _, [] => none
  | .once a :: ps, c :: rest =>
    if matchAtom a c then (matchSeq ps rest).map (· + 1) else none
  | .plus a :: ps, s =>
    let k := takeCount a s
    if k = 0 then none else (matchSeq ps (s.drop k)).map (· + k)
  | .star a :: ps, s =>
    let k := takeCount a s
    (matchSeq ps (s.drop k)).map (· + k)
  | .opt _ :: ps, [] => matchSeq ps []
  | .opt a :: ps, c :: rest =>
    if matchAtom a c then (matchSeq ps rest).map (· + 1)
    else matchSeq ps (c :: rest)

/-- Replace every non-overlapping, leftmost match of the regex (empty
matches are skipped to guarantee progress); fuel bounds the scan. -/
def regexReplaceGo (r : Regex) (rep : List Nat) : Nat → List Nat → List Nat
  | _, [] => []
  | 0, s => s
  | fuel + 1, c :: rest =>
    match matchSeq r (c :: rest) with
    | some (k + 1) => rep ++ regexReplaceGo r rep fuel ((c :: rest).drop (k + 1))
    | _ => c :: regexReplaceGo r rep fuel rest

/-- Modelled from the spec: replace every non-overlapping match of the
compiled pattern by the replacement. -/
def regexReplace (r : Regex) (rep : List Nat) (s : List Nat) : List Nat :=
  regexReplaceGo r rep (s.length + 1) s

/-- Replace every non-overlapping occurrence of a literal pattern, leftmost
first; fuel bounds the scan. -/
def literalReplaceGo (pat rep : List Nat) : Nat → List Nat → List Nat
  | _, [] => []
  | 0, s => s
  | fuel + 1, c :: rest =>
    if pat.isPrefixOf (c :: rest) ∧ pat ≠ [] then
      rep ++ literalReplaceGo pat rep fuel ((c :: rest).drop pat.length)
    else c :: literalReplaceGo pat rep fuel rest

/-- Modelled from the spec: `ReplaceLiteral` — every non-overlapping
occurrence of the pattern (left-to-right, first match wins) is replaced. -/
def literalReplace (pat rep : List Nat) (s : List Nat) : List Nat :=
  literalReplaceGo pat rep (s.length + 1) s

/-! ## NormalizedString and the Normalizer variants -/

/-- `NormalizedString` from `normalizers.h`: an original string together
with the current normalized string.  (The engine-side alignment structure
is modelled separately below, as the claims need it only for the initial,
identity mapping.) -/
structure NormalizedString where
  original : Text
  normalized : Text
  deriving DecidableEq, Repr

/-- Modelled from the spec: `ffi::normalized_string` — construct a
`NormalizedString` whose normalized text starts out equal to the
original. -/
def normalized_string (t : Text) : NormalizedString := ⟨t, t⟩

/-- `NormalizedString::get_normalized` from `normalizers.h`. -/
def NormalizedString.get_normalized (s : NormalizedString) : Text :=
  s.normalized

/-- `NormalizedString::get_original` from `normalizers.h`. -/
def NormalizedString.get_original (s : NormalizedString) : Text :=
  s.original

/-- `NormalizedString::operator nonstd::string_view` from `normalizers.h`:
its body is `return get_normalized();`. -/
def NormalizedString.toStringView (s : NormalizedString) : Text :=
  s.get_normalized

/-- The `BertStripAccents` tri-state passed to `Normalizer::bert`. -/
inductive BertStripAccents where
  | True
  | False
  | DeterminedByLowercase
  deriving DecidableEq, Repr

/-- Modelled from the spec: `strip_accents = DeterminedByLowercase`
resolves to `lowercase`, once, at construction. -/
def resolveStripAccents (sa : BertStripAccents) (lowercase : Bool) : Bool :=
  match sa with
  | .True => true
  | .False => false
  | .DeterminedByLowercase => lowercase

/-- The BERT normalizer's resolved configuration (the `strip_accents`
tri-state has already been turned into a boolean). -/
structure BertConfig where
  clean_text : Bool
  handle_chinese_chars : Bool
  strip_accents : Bool
  lowercase : Bool
  deriving DecidableEq, Repr

/-- Modelled from the spec: the BERT pipeline, each enabled sub-step
applied to the whole string, in the fixed order clean_text,
handle_chinese_chars, strip_accents, lowercase. -/
def bertNormalize (cfg : BertConfig) (l : Text) : Text :=
  let s1 := if cfg.clean_text then cleanText l else l
  let s2 := if cfg.handle_chinese_chars then handleChineseChars s1 else s1
  let s3 := if cfg.strip_accents then stripAccentsF s2 else s2
  if cfg.lowercase then lowercaseF s3 else s3

/-- Apply-time errors (spec §7); regex compilation failure is the only
error the model can produce, and it occurs at construction. -/
inductive NormError where
  | invalidPattern
  deriving DecidableEq, Repr

/-- The `Normalizer` variants (spec §3): one constructor per strategy.  A
`replaceRegex` value holds an already-compiled pattern, because
construction validates the pattern (spec §7). -/
inductive Normalizer where
  | bert (cfg : BertConfig)
  | strip (strip_left strip_right : Bool)
  | stripAccents
  | nfcN
  | nfdN
  | nfkcN
  | nfkdN
  | lowercase
  | replaceLiteral (pattern replacement : Text)
  | replaceRegex (r : Regex) (replacement : Text)
  | sequence (normalizers : List Normalizer)

/-- Modelled from the spec: `Strip` — drop leading whitespace when
`strip_left`, trailing whitespace when `strip_right`. -/
def stripF (left right : Bool) (l : Text) : Text :=
  let l1 := if left then l.dropWhile (fun c => isWhitespace c) else l
  if right then (l1.reverse.dropWhile (fun c => isWhitespace c)).reverse else l1

/-- The pure transformation of one non-sequence variant on the normalized
text. -/
def applyVariant : Normalizer → Text → Text
  | .bert cfg, l => bertNormalize cfg l
  | .strip left right, l => stripF left right l
  | .stripAccents, l => stripAccentsF l
  | .nfcN, l => nfc l
  | .nfdN, l => nfd l
  | .nfkcN, l => nfkc l
  | .nfkdN, l => nfkd l
  | .lowercase, l => lowercaseF l
  | .replaceLiteral pat rep, l => literalReplace pat rep l
  | .replaceRegex r rep, l => regexReplace r rep l
  | .sequence _, l => l

mutual

/-- Modelled from the spec: `Normalizer::normalize` applies the variant's
transformation in place; `Sequence` applies its members in list order,
stopping at the first failing step and reporting its error while keeping
the state produced by the last successful step.  The error component is
`none` on success. -/
def normalize : Normalizer → NormalizedString → NormalizedString × Option NormError
  | .sequence ns, s => normalizeList ns s
  | n, s => ({ s with normalized := applyVariant n s.normalized }, none)

def normalizeList : List Normalizer → NormalizedString → NormalizedString × Option NormError
  | [], s => (s, none)
  | n :: rest, s =>
    match normalize n s with
    | (s2, none) => normalizeList rest s2
    | (_, some e) => (s, some e)

end

/-- The fail-fast sequence combinator over an arbitrary step function: the
semantics of the `Sequence` variant (spec §4.2), abstracted over the step
so that the failing case is exercisable. -/
def seqFold (f : Normalizer → NormalizedString → NormalizedString × Option NormError) :
    List Normalizer → NormalizedString → NormalizedString × Option NormError
  | [], s => (s, none)
  | n :: rest, s =>
    match f n s with
    | (s2, none) => seqFold f rest s2
    | (_, some e) => (s, some e)

/-- The state after applying every step in order, ignoring errors. -/
def stepFold (f : Normalizer → NormalizedString → NormalizedString × Option NormError)
    (ns : List Normalizer) (s : NormalizedString) : NormalizedString :=
  ns.foldl (fun t n => (f n t).1) s

/-- A step function with a reachable failure (it fails exactly on the
`lowercase` variant), used to exercise the fail-fast law concretely. -/
def seqWitnessStep (n : Normalizer) (s : NormalizedString) :
    NormalizedString × Option NormError :=
  match n with
  | .lowercase => (s, some .invalidPattern)
  | n => normalize n s

/-- A text is in composed normal form when no adjacent pair can fuse. -/
def NormalForm : Text → Prop
  | [] => True
  | [_] => True
  | a :: b :: rest => composePair a b = none ∧ NormalForm (b :: rest)

/-! ## Normalizer constructors (the static members of `Normalizer` in
`normalizers.h`, backed by the `ffi::*_normalizer` engine constructors) -/

/-- `Normalizer::bert` / `ffi::bert_normalizer`: the `DeterminedByLowercase`
tri-state is resolved to a boolean here, at construction. -/
def bert_normalizer (clean_text handle_chinese_chars : Bool)
    (strip_accents : BertStripAccents) (lowercase : Bool) : Normalizer :=
  .bert ⟨clean_text, handle_chinese_chars,
    resolveStripAccents strip_accents lowercase, lowercase⟩

/-- `Normalizer::strip` / `ffi::strip_normalizer`. -/
def strip_normalizer (strip_left strip_right : Bool) : Normalizer :=
  .strip strip_left strip_right

/-- `Normalizer::strip_accents` / `ffi::strip_accents_normalizer`. -/
def strip_accents_normalizer : Normalizer := .stripAccents

/-- `Normalizer::nfc` / `ffi::nfc_normalizer`. -/
def nfc_normalizer : Normalizer := .nfcN

/-- `Normalizer::nfd` / `ffi::nfd_normalizer`. -/
def nfd_normalizer : Normalizer := .nfdN

/-- `Normalizer::nfkc` / `ffi::nfkc_normalizer`. -/
def nfkc_normalizer : Normalizer := .nfkcN

/-- `Normalizer::nfkd` / `ffi::nfkd_normalizer`. -/
def nfkd_normalizer : Normalizer := .nfkdN

/-- `Normalizer::lowercase` / `ffi::lowercase_normalizer`. -/
def lowercase_normalizer : Normalizer := .lowercase

/-- `Normalizer::replace_literal` / `ffi::replace_literal_normalizer`. -/
def replace_literal (pattern replacement : Text) : Normalizer :=
  .replaceLiteral pattern replacement

/-- `Normalizer::replace_regex` / `ffi::replace_regex_normalizer`: compiles
the pattern and fails with `InvalidPattern` when it is malformed (spec §7),
so a successfully constructed normalizer holds a valid compiled pattern. -/
def replace_regex (pattern replacement : Text) : Except NormError Normalizer :=
  match compileRegex pattern with
  | some r => .ok (.replaceRegex r replacement)
  | none => .error .invalidPattern

/-! ## The BERT builder (`BertNormalizerBuilder` in `normalizers.h`,
`BertNormalizerOptions` in `src/unnamed/part_000`) -/

/-- The builder's fields with their `HFT_BUILDER_ARG` defaults. -/
structure BertNormalizerBuilder where
  clean_text : Bool := true
  handle_chinese_chars : Bool := true
  lowercase : Bool := true
  strip_accents : BertStripAccents := .DeterminedByLowercase
  deriving DecidableEq, Repr

/-- `BertNormalizerBuilder::with_strip_accents`: fixes the tri-state to an
explicit `True`/`False`. -/
def BertNormalizerBuilder.with_strip_accents (b : BertNormalizerBuilder)
    (strip_accents : Bool) : BertNormalizerBuilder :=
  { b with strip_accents := if strip_accents then .True else .False }

/-- `BertNormalizerBuilder::build`: forwards the current field values to
`Normalizer::bert`. -/
def BertNormalizerBuilder.build (b : BertNormalizerBuilder) : Normalizer :=
  bert_normalizer b.clean_text b.handle_chinese_chars b.strip_accents
    b.lowercase

/-! ## Offset translation (spec §4.1) -/

/-- Modelled from the spec: the initial, identity alignment of a freshly
constructed `NormalizedString` — one segment per scalar value, mapping
normalized position `i` to original range `[i, i+1)`. -/
def identityAlignment (n : Nat) : List (Nat × Nat) :=
  (List.range n).map (fun i => (i, i + 1))

/-- Modelled from the spec: the core's normalized→original offset/range
translation, absent from the C++ binding in `src/`.  Given the alignment
and a normalized range `[a, b)`, returns the covering original range (the
start of segment `a` to the end of segment `b-1`); `none` when the range is
empty or out of bounds. -/
def convertOffsets (al : List (Nat × Nat)) (a b : Nat) : Option (Nat × Nat) :=
  if h : a < b ∧ b ≤ al.length then
    some ((al.get ⟨a, by omega⟩).1, (al.get ⟨b - 1, by omega⟩).2)
  else none

/-! ## Lemmas: canonical composition and NFC idempotence -/

theorem composePair_some_iff {a b p : Nat} :
    composePair a b = some p ↔
      (a = 0x65 ∧ b = 0x301 ∧ p = 0xE9) ∨ (a = 0x45 ∧ b = 0x301 ∧ p = 0xC9) := by
  unfold composePair
  split_ifs with h1 h2 <;> simp_all <;> omega

theorem composePair_none_left {a : Nat} (ha : a = 0xE9 ∨ a = 0xC9) (b : Nat) :
    composePair a b = none := by
  cases h : composePair a b with
  | none => rfl
  | some p =>
    rcases composePair_some_iff.1 h with ⟨h1, _, _⟩ | ⟨h1, _, _⟩ <;> omega

theorem composePair_none_right (a : Nat) {b : Nat} (hb : b ≠ 0x301) :
    composePair a b = none := by
  cases h : composePair a b with
  | none => rfl
  | some p =>
    rcases composePair_some_iff.1 h with ⟨_, h2, _⟩ | ⟨_, h2, _⟩ <;> omega

theorem compose_fuse {a b p : Nat} (rest : Text) (h : composePair a b = some p) :
    compose (a :: b :: rest) = compose (p :: rest) := by
  rw [compose, h]

theorem compose_no_fuse {a b : Nat} (rest : Text) (h : composePair a b = none) :
    compose (a :: b :: rest) = a :: compose (b :: rest) := by
  rw [compose, h]

/-- The head of a composition is the original head or a precomposed char. -/
theorem compose_head : (x : Nat) → (xs : Text) →
    ∃ h t, compose (x :: xs) = h :: t ∧ (h = x ∨ h = 0xE9 ∨ h = 0xC9)
  | x, [] => ⟨x, [], by rw [compose], Or.inl rfl⟩
  | x, y :: r => by
    cases hc : composePair x y with
    | none => exact ⟨x, compose (y :: r), compose_no_fuse r hc, Or.inl rfl⟩
    | some p =>
      obtain ⟨h, t, heq, hd⟩ := compose_head p r
      refine ⟨h, t, (compose_fuse r hc).trans heq, Or.inr ?_⟩
      rcases hd with rfl | hd
      · rcases composePair_some_iff.1 hc with ⟨_, _, rfl⟩ | ⟨_, _, rfl⟩
        · exact Or.inl rfl
        · exact Or.inr rfl
      · exact hd
  termination_by _ xs => xs.length
  decreasing_by all_goals simp_wf

/-- Composition produces a text in composed normal form. -/
theorem compose_normalForm : (l : Text) → NormalForm (compose l)
  | [] => by rw [compose]; trivial
  | [c] => by rw [compose]; trivial
  | a :: b :: rest => by
    cases hc : composePair a b with
    | some p =>
      rw [compose_fuse rest hc]
      exact compose_normalForm (p :: rest)
    | none =>
      rw [compose_no_fuse rest hc]
      obtain ⟨h, t, heq, hd⟩ := compose_head b rest
      have hnf : NormalForm (compose (b :: rest)) := compose_normalForm (b :: rest)
      rw [heq] at hnf ⊢
      refine ⟨?_, hnf⟩
      rcases hd with rfl | hd
      · exact hc
      · exact composePair_none_right a (by omega)
  termination_by l => l.length
  decreasing_by all_goals simp_wf

theorem nfd_cons (c : Nat) (l : Text) : nfd (c :: l) = nfdChar c ++ nfd l := rfl

/-- A precomposed character never fuses with what follows, so composition
passes over it. -/
theorem compose_cons_precomposed {a : Nat} (ha : a = 0xE9 ∨ a = 0xC9) :
    (L : Text) → compose (a :: L) = a :: compose L
  | [] => by rw [compose, compose]
  | h :: t => compose_no_fuse t (composePair_none_left ha h)

/-- Decomposing a text in composed normal form and recomposing is the
identity. -/
theorem compose_nfd_of_normalForm : (l : Text) → NormalForm l → compose (nfd l) = l
  | [], _ => by rw [show nfd [] = [] from rfl, compose]
  | [c], _ => by
    by_cases h9 : c = 0xE9
    · subst h9
      rw [nfd_cons, show nfdChar 0xE9 = [0x65, 0x301] from rfl,
        show nfd [] = [] from rfl, List.append_nil,
        compose_fuse [] (show composePair 0x65 0x301 = some 0xE9 by decide),
        compose]
    · by_cases hC : c = 0xC9
      · subst hC
        rw [nfd_cons, show nfdChar 0xC9 = [0x45, 0x301] from rfl,
          show nfd [] = [] from rfl, List.append_nil,
          compose_fuse [] (show composePair 0x45 0x301 = some 0xC9 by decide),
          compose]
      · rw [nfd_cons, show nfdChar c = [c] by unfold nfdChar; simp [h9, hC],
          show nfd [] = [] from rfl, List.append_nil, compose]
  | a :: b :: rest, h => by
    obtain ⟨hab, hbr⟩ : composePair a b = none ∧ NormalForm (b :: rest) := h
    have IH : compose (nfd (b :: rest)) = b :: rest :=
      compose_nfd_of_normalForm (b :: rest) hbr
    have hL : ∃ h0 t0, nfd (b :: rest) = h0 :: t0 ∧ (h0 = b ∨ h0 = 0x65 ∨ h0 = 0x45) := by
      by_cases hb9 : b = 0xE9
      · exact ⟨0x65, 0x301 :: nfd rest, by subst hb9; rfl, Or.inr (Or.inl rfl)⟩
      · by_cases hbC : b = 0xC9
        · exact ⟨0x45, 0x301 :: nfd rest, by subst hbC; rfl, Or.inr (Or.inr rfl)⟩
        · refine ⟨b, nfd rest, ?_, Or.inl rfl⟩
          rw [nfd_cons, show nfdChar b = [b] by unfold nfdChar; simp [hb9, hbC]]
          rfl
    obtain ⟨h0, t0, hLeq, hh0⟩ := hL
    by_cases ha9 : a = 0xE9
    · subst ha9
      rw [nfd_cons, show nfdChar 0xE9 = [0x65, 0x301] from rfl]
      show compose (0x65 :: 0x301 :: nfd (b :: rest)) = _
      rw [compose_fuse _ (show composePair 0x65 0x301 = some 0xE9 by decide),
        compose_cons_precomposed (Or.inl rfl) _, IH]
    · by_cases haC : a = 0xC9
      · subst haC
        rw [nfd_cons, show nfdChar 0xC9 = [0x45, 0x301] from rfl]
        show compose (0x45 :: 0x301 :: nfd (b :: rest)) = _
        rw [compose_fuse _ (show composePair 0x45 0x301 = some 0xC9 by decide),
          compose_cons_precomposed (Or.inr rfl) _, IH]
      · rw [nfd_cons, show nfdChar a = [a] by unfold nfdChar; simp [ha9, haC]]
        show compose (a :: nfd (b :: rest)) = _
        rw [hLeq]
        have hnone : composePair a h0 = none := by
          rcases hh0 with rfl | rfl | rfl
          · exact hab
          · exact composePair_none_right a (by omega)
          · exact composePair_none_right a (by omega)
        rw [compose_no_fuse _ hnone, ← hLeq, IH]
  termination_by l => l.length
  decreasing_by all_goals simp_wf

/-- NFC is idempotent. -/
theorem nfc_idem (l : Text) : nfc (nfc l) = nfc l :=
  compose_nfd_of_normalForm (compose (nfd l)) (compose_normalForm (nfd l))

/-! ## Lemmas: lowercase idempotence -/

theorem uLower_idem (c : Nat) : uLower (uLower c) = uLower c := by
  unfold uLower
  split_ifs <;> omega

theorem lowercaseF_idem : ∀ l : Text, lowercaseF (lowercaseF l) = lowercaseF l
  | [] => rfl
  | c :: t => by
    show uLower (uLower c) :: lowercaseF (lowercaseF t) = uLower c :: lowercaseF t
    rw [uLower_idem]
    exact congrArg _ (lowercaseF_idem t)

/-! ## Lemmas: normalize never fails and never touches the original -/

theorem normalizeList_cons_of_ok {n : Normalizer} {rest : List Normalizer}
    {s : NormalizedString} (h : (normalize n s).2 = none) :
    normalizeList (n :: rest) s = normalizeList rest (normalize n s).1 := by
  have heq : normalizeList (n :: rest) s =
      (match normalize n s with
       | (s2, none) => normalizeList rest s2
       | (_, some e) => (s, some e)) := rfl
  cases hn : normalize n s with
  | mk s2 e =>
    rw [hn] at heq h
    cases e with
    | none => exact heq
    | some e0 => exact absurd h (by simp)

mutual

/-- Every normalizer application succeeds and leaves the original text
unchanged. -/
theorem normalize_frame : (n : Normalizer) → (s : NormalizedString) →
    (normalize n s).1.original = s.original ∧ (normalize n s).2 = none
  | .sequence ns, s => normalizeList_frame ns s
  | .bert _, _ => ⟨rfl, rfl⟩
  | .strip _ _, _ => ⟨rfl, rfl⟩
  | .stripAccents, _ => ⟨rfl, rfl⟩
  | .nfcN, _ => ⟨rfl, rfl⟩
  | .nfdN, _ => ⟨rfl, rfl⟩
  | .nfkcN, _ => ⟨rfl, rfl⟩
  | .nfkdN, _ => ⟨rfl, rfl⟩
  | .lowercase, _ => ⟨rfl, rfl⟩
  | .replaceLiteral _ _, _ => ⟨rfl, rfl⟩
  | .replaceRegex _ _, _ => ⟨rfl, rfl⟩

theorem normalizeList_frame : (ns : List Normalizer) → (s : NormalizedString) →
    (normalizeList ns s).1.original = s.original ∧ (normalizeList ns s).2 = none
  | [], _ => ⟨rfl, rfl⟩
  | n :: rest, s => by
    have h1 := normalize_frame n s
    rw [normalizeList_cons_of_ok h1.2]
    obtain ⟨ho2, he2⟩ := normalizeList_frame rest (normalize n s).1
    exact ⟨ho2.trans h1.1, he2⟩

end

/-- Iterated application of normalizers, in list order, never changes the
original text. -/
theorem stepFold_normalize_original :
    ∀ (ns : List Normalizer) (s : NormalizedString),
      (stepFold normalize ns s).original = s.original
  | [], _ => rfl
  | n :: rest, s => by
    show (stepFold normalize rest (normalize n s).1).original = s.original
    rw [stepFold_normalize_original rest _]
    exact (normalize_frame n s).1

/-! ## Lemmas: the fail-fast sequence combinator -/

theorem seqFold_cons {f : Normalizer → NormalizedString → NormalizedString × Option NormError}
    {n : Normalizer} (rest : List Normalizer) (s : NormalizedString) :
    seqFold f (n :: rest) s =
      (match f n s with
       | (s2, none) => seqFold f rest s2
       | (_, some e) => (s, some e)) := rfl

theorem seqFold_cons_ok {f : Normalizer → NormalizedString → NormalizedString × Option NormError}
    {n : Normalizer} {rest : List Normalizer} {s s2 : NormalizedString}
    (h : f n s = (s2, none)) : seqFold f (n :: rest) s = seqFold f rest s2 := by
  rw [seqFold_cons, h]

theorem seqFold_cons_err {f : Normalizer → NormalizedString → NormalizedString × Option NormError}
    {n : Normalizer} {rest : List Normalizer} {s s2 : NormalizedString} {e : NormError}
    (h : f n s = (s2, some e)) : seqFold f (n :: rest) s = (s, some e) := by
  rw [seqFold_cons, h]

theorem normalizeList_eq_seqFold : ∀ (ns : List Normalizer) (s : NormalizedString),
    normalizeList ns s = seqFold normalize ns s
  | [], _ => rfl
  | n :: rest, s => by
    have h := (normalize_frame n s).2
    cases hn : normalize n s with
    | mk s2 e =>
      rw [hn] at h
      cases e with
      | none =>
        rw [normalizeList_cons_of_ok (by rw [hn]), hn,
          seqFold_cons_ok hn]
        exact normalizeList_eq_seqFold rest s2
      | some e0 => exact absurd h (by simp)

/-- When every step succeeds, the fail-fast fold is the plain left fold of
the steps, in list order. -/
theorem seqFold_ok_eq_stepFold
    {f : Normalizer → NormalizedString → NormalizedString × Option NormError} :
    ∀ (ns : List Normalizer) (s : NormalizedString),
      (seqFold f ns s).2 = none → (seqFold f ns s).1 = stepFold f ns s
  | [], _, _ => rfl
  | n :: rest, s, h => by
    cases hn : f n s with
    | mk s2 e =>
      cases e with
      | none =>
        rw [seqFold_cons_ok hn] at h ⊢
        rw [seqFold_ok_eq_stepFold rest s2 h]
        show stepFold f rest s2 = stepFold f rest (f n s).1
        rw [hn]
      | some e0 =>
        rw [seqFold_cons_err hn] at h
        exact absurd h (by simp)

/-- Fail-fast: when the steps before `n` all succeed and `n` fails, the
fold stops at `n`, reports its error, and keeps the state produced by the
last successful step; the steps after `n` are never applied. -/
theorem seqFold_fail_fast
    {f : Normalizer → NormalizedString → NormalizedString × Option NormError} :
    ∀ (pre : List Normalizer) (n : Normalizer) (post : List Normalizer)
      (s s2 : NormalizedString) (e : NormError),
      (seqFold f pre s).2 = none →
      f n (seqFold f pre s).1 = (s2, some e) →
      seqFold f (pre ++ n :: post) s = ((seqFold f pre s).1, some e)
  | [], n, post, s, s2, e, _, hfail => by
    show seqFold f (n :: post) s = (s, some e)
    exact seqFold_cons_err hfail
  | m :: pre, n, post, s, s2, e, hok, hfail => by
    cases hm : f m s with
    | mk s3 e3 =>
      cases e3 with
      | none =>
        rw [seqFold_cons_ok hm] at hok hfail ⊢
        rw [List.cons_append, seqFold_cons_ok hm]
        exact seqFold_fail_fast pre n post s3 s2 e hok hfail
      | some e3 =>
        rw [seqFold_cons_err hm] at hok
        exact absurd hok (by simp)

/-! ## Lemmas: offset translation on the identity alignment -/

theorem convertOffsets_identity {n a b : Nat} (h1 : a < b) (h2 : b ≤ n) :
    convertOffsets (identityAlignment n) a b = some (a, b) := by
  have hlen : (identityAlignment n).length = n := by
    simp [identityAlignment]
  unfold convertOffsets
  rw [dif_pos ⟨h1, by omega⟩]
  simp only [identityAlignment, List.get_eq_getElem, List.getElem_map,
    List.getElem_range]
  refine congrArg _ (Prod.ext rfl ?_)
  show b - 1 + 1 = b
  omega

/-! ## The claims -/

/-- C1: the Bert normalizer with `clean_text=true, handle_chinese_chars=true,
strip_accents=true, lowercase=true`, applied to a `NormalizedString` built
from `"Héllo   WORLD😀"`, yields `get_normalized() = "hello world😀"`: the
accent of `é` is stripped, the space run collapses to one ASCII space, the
letters are lowercased and the emoji is unchanged. -/
theorem spec_c1 :
    ((normalize (bert_normalizer true true .True true)
        (normalized_string (strCodes "Héllo   WORLD😀"))).1).get_normalized
      = strCodes "hello world😀" := by decide

/-- C2: constructing a `NormalizedString` from any text `t` and reading it
back before any normalizer is applied returns `t` for both
`get_normalized()` and `get_original()`. -/
theorem spec_c2 (t : Text) :
    (normalized_string t).get_normalized = t ∧
    (normalized_string t).get_original = t :=
  ⟨rfl, rfl⟩

/-- C3: `strip_accents = DeterminedByLowercase` is resolved at construction
to the value of `lowercase` (so constructing with `DeterminedByLowercase`
is the same as constructing with the explicit resolved value, and nothing
re-evaluates it later — the built normalizer stores only the resolved
boolean); the builder's `with_strip_accents(b)` fixes the tri-state to an
explicit `True`/`False` independent of `lowercase`. -/
theorem spec_c3 :
    (∀ c h l : Bool,
        bert_normalizer c h .DeterminedByLowercase l = .bert ⟨c, h, l, l⟩) ∧
    (∀ c h l : Bool,
        bert_normalizer c h .DeterminedByLowercase l =
          bert_normalizer c h (if l then .True else .False) l) ∧
    (∀ (b : BertNormalizerBuilder) (flag : Bool),
        (b.with_strip_accents flag).strip_accents =
          (if flag then .True else .False)) := by
  refine ⟨fun c h l => rfl, fun c h l => ?_, fun b flag => rfl⟩
  cases l <;> rfl

/-- C4: a malformed pattern makes `replace_regex` fail with
`InvalidPattern` at construction, and a successfully constructed normalizer
of any variant never fails when `normalize` is invoked. -/
theorem spec_c4 :
    (∀ pattern replacement : Text, compileRegex pattern = none →
        replace_regex pattern replacement = .error .invalidPattern) ∧
    (∀ (n : Normalizer) (s : NormalizedString), (normalize n s).2 = none) := by
  constructor
  · intro pat rep h
    unfold replace_regex
    rw [h]
  · intro n s
    exact (normalize_frame n s).2

/-- C4 witness: `"("` is malformed, its construction fails, and a sample
apply succeeds. -/
theorem spec_c4_witness :
    (compileRegex (strCodes "(") = none ∧
      replace_regex (strCodes "(") [] = .error .invalidPattern) ∧
    (normalize lowercase_normalizer (normalized_string (strCodes "AB"))).2
      = none :=
  ⟨⟨by decide, spec_c4.1 _ _ (by decide)⟩, spec_c4.2 _ _⟩

/-- C5: the `Sequence` normalizer is the fail-fast fold of its members over
the same `NormalizedString`: `normalize` on a sequence is `seqFold` of the
step function; when every step succeeds the result is the steps applied in
list order; and when a step fails after a successful prefix, the fold stops
there, reports that step's error, and keeps the state produced by the last
successful step (the remaining steps are never applied). -/
theorem spec_c5 :
    (∀ (ns : List Normalizer) (s : NormalizedString),
        normalize (.sequence ns) s = seqFold normalize ns s) ∧
    (∀ (f : Normalizer → NormalizedString → NormalizedString × Option NormError)
        (ns : List Normalizer) (s : NormalizedString),
        (seqFold f ns s).2 = none → (seqFold f ns s).1 = stepFold f ns s) ∧
    (∀ (f : Normalizer → NormalizedString → NormalizedString × Option NormError)
        (pre : List Normalizer) (n : Normalizer) (post : List Normalizer)
        (s s2 : NormalizedString) (e : NormError),
        (seqFold f pre s).2 = none →
        f n (seqFold f pre s).1 = (s2, some e) →
        seqFold f (pre ++ n :: post) s = ((seqFold f pre s).1, some e)) :=
  ⟨fun ns s => normalizeList_eq_seqFold ns s,
   fun _ ns s h => seqFold_ok_eq_stepFold ns s h,
   fun _ pre n post s s2 e h1 h2 => seqFold_fail_fast pre n post s s2 e h1 h2⟩

/-- C5 witness: a concrete sequence, a concrete all-successful fold, and a
concrete failing step after a successful prefix (using the step function
that fails on `lowercase`): the fold stops at the failure, keeps the state
after the prefix, and skips the rest. -/
theorem spec_c5_witness :
    (normalize (.sequence [lowercase_normalizer])
        (normalized_string (strCodes "Aa"))
      = seqFold normalize [lowercase_normalizer]
          (normalized_string (strCodes "Aa"))) ∧
    ((seqFold seqWitnessStep [nfd_normalizer]
        (normalized_string (strCodes "Aa"))).1
      = stepFold seqWitnessStep [nfd_normalizer]
          (normalized_string (strCodes "Aa"))) ∧
    (seqFold seqWitnessStep
        ([nfd_normalizer] ++ lowercase_normalizer :: [nfc_normalizer])
        (normalized_string (strCodes "Aa"))
      = ((seqFold seqWitnessStep [nfd_normalizer]
            (normalized_string (strCodes "Aa"))).1,
         some NormError.invalidPattern)) :=
  ⟨spec_c5.1 _ _,
   spec_c5.2.1 seqWitnessStep _ _ (by decide),
   spec_c5.2.2 seqWitnessStep [nfd_normalizer] lowercase_normalizer
     [nfc_normalizer] (normalized_string (strCodes "Aa"))
     (seqFold seqWitnessStep [nfd_normalizer]
        (normalized_string (strCodes "Aa"))).1
     NormError.invalidPattern (by decide) (by decide)⟩

/-- C6: the core exposes a normalized→original offset/range translation; on
the identity alignment of a freshly constructed `NormalizedString` it maps
every in-bounds range to itself. -/
theorem spec_c6 (t : Text) (a b : Nat) (h1 : a < b)
    (h2 : b ≤ (normalized_string t).get_original.length) :
    convertOffsets
        (identityAlignment (normalized_string t).get_original.length) a b
      = some (a, b) :=
  convertOffsets_identity h1 h2

/-- C6 witness: the range `[0, 2)` of a three-character string translates
to the original range `[0, 2)`. -/
theorem spec_c6_witness :
    0 < 2 ∧ 2 ≤ (normalized_string (strCodes "abc")).get_original.length ∧
    convertOffsets
        (identityAlignment
          (normalized_string (strCodes "abc")).get_original.length) 0 2
      = some (0, 2) :=
  ⟨by decide, by decide, spec_c6 (strCodes "abc") 0 2 (by decide) (by decide)⟩

/-- C7: the NFC normalizer and the Lowercase normalizer are idempotent on
the normalized text of every `NormalizedString`. -/
theorem spec_c7 (s : NormalizedString) :
    ((normalize nfc_normalizer ((normalize nfc_normalizer s).1)).1.get_normalized
      = (normalize nfc_normalizer s).1.get_normalized) ∧
    ((normalize lowercase_normalizer
        ((normalize lowercase_normalizer s).1)).1.get_normalized
      = (normalize lowercase_normalizer s).1.get_normalized) := by
  constructor
  · show nfc (nfc s.normalized) = nfc s.normalized
    exact nfc_idem s.normalized
  · show lowercaseF (lowercaseF s.normalized) = lowercaseF s.normalized
    exact lowercaseF_idem s.normalized

/-- C8: no `normalize` call, of any variant, and no sequence of such calls,
changes the original text: `get_original()` always returns the text fixed
at construction. -/
theorem spec_c8 (s : NormalizedString) :
    (∀ n : Normalizer, ((normalize n s).1).get_original = s.get_original) ∧
    (∀ ns : List Normalizer,
        (stepFold normalize ns s).get_original = s.get_original) :=
  ⟨fun n => (normalize_frame n s).1,
   fun ns => stepFold_normalize_original ns s⟩

/-- C9: the implicit conversion of a `NormalizedString` to a string view
returns the current normalized text (it agrees with `get_normalized()`);
concretely, after lowercasing `"AB"` the view is `"ab"` while the original
text is still `"AB"`, so the view is not the original text. -/
theorem spec_c9 :
    (∀ s : NormalizedString, s.toStringView = s.get_normalized) ∧
    ((normalize lowercase_normalizer
        (normalized_string (strCodes "AB"))).1.toStringView
      = strCodes "ab") ∧
    ((normalize lowercase_normalizer
        (normalized_string (strCodes "AB"))).1.get_original
      = strCodes "AB") :=
  ⟨fun _ => rfl, by decide, by decide⟩

/-- C10: a builder on which no setter was called has
`clean_text = handle_chinese_chars = lowercase = true` and
`strip_accents = DeterminedByLowercase`, and `build()` forwards exactly the
builder's current field values to the Bert constructor. -/
theorem spec_c10 :
    (({} : BertNormalizerBuilder)
      = ⟨true, true, true, .DeterminedByLowercase⟩) ∧
    (({} : BertNormalizerBuilder).build
      = bert_normalizer true true .DeterminedByLowercase true) ∧
    (∀ b : BertNormalizerBuilder,
        b.build = bert_normalizer b.clean_text b.handle_chinese_chars
          b.strip_accents b.lowercase) :=
  ⟨rfl, rfl, fun _ => rfl⟩

end Tokenizers
